import Mathlib

/-!
Shallow embedding of `src/pylorax/treebuilder.py` (the lorax tree-building
module): kernel/initrd discovery (`findkernels`), the `_exists` glob
predicate, the template-command interpreter (`TemplateRunner`), the variable
binder (`BaseBuilder.getdefaults` / `runtemplate`) and the finalize step
(`TreeBuilder.implantisomd5`).

Python strings are Lean `String`s, Python dicts are association lists with
first-occurrence lookup, exceptions are an explicit `PyErr` error type, and
filesystem / subprocess interaction is an oracle `Env` of pure functions plus
a trace of attempted effects.  Helpers imported from `sysutils` (`joinpaths`,
`cpfile`, `replace`, `remove`) are not part of the source tree and are
modelled from the specification where noted.
-/

set_option autoImplicit false
set_option maxRecDepth 8000

namespace Treebuilder

/-- Python exception values distinguished by this embedding. -/
inductive PyErr where
  | typeError (msg : String)
  | valueError (msg : String)
  | keyError (msg : String)
  | ioError (msg : String)
  | osError (msg : String)
  | attributeError (msg : String)
  | indexError
  deriving DecidableEq, Repr

/-- Filesystem / process effects attempted by the interpreter, recorded in
order in a trace.  Logging calls are recorded as effects as well. -/
inductive Effect where
  | cpfile (src dest : String)
  | makedirs (d : String)
  | replaceInFile (pat repl file : String)
  | appendFile (file data : String)
  | osLink (src dest : String)
  | osSymlink (target dest : String)
  | removePath (target : String)
  | chmodPath (target : String) (mode : Nat)
  | checkCall (chdir : Option String) (cmd : List String)
  | logDebug (num : Nat) (line : List String)
  | logErrorLine (line : List String)
  | logErrorMsg (e : PyErr)
  | logInfo (msg : String)
  deriving DecidableEq, Repr

/-- The architecture object consumed by `BaseBuilder.getdefaults`
(`self.arch.basearch`, `self.arch.libdir`). -/
structure ArchData where
  basearch : String
  libdir : String
  deriving DecidableEq, Repr

/-- Values stored in the template-variable mapping.  Defaults are strings,
the architecture object, and the `exists` closure (identified by the root it
captures); caller-supplied extras may be arbitrary objects (`vOpaque`). -/
inductive PyVal where
  | vStr (s : String)
  | vArch (a : ArchData)
  | vExistsFn (root : String)
  | vOpaque (n : Nat)
  deriving DecidableEq, Repr

/-- Oracle for every observation the code makes of the outside world:
`glob.glob`, `os.path.exists`, `os.path.isdir`, `os.listdir`, the outcome of
each attempted OS / subprocess effect, and the external template parser. -/
structure Env where
  glob : String → List String
  pathExists : String → Bool
  isdir : String → Bool
  listdir : String → List String
  osOk : Effect → Option PyErr
  parse : String → List (String × PyVal) → List (List String)

/-- First-occurrence lookup in an association list (Python dict read). -/
def alookup {V : Type} (k : String) : List (String × V) → Option V
  | [] => none
  | (k₂, v) :: rest => if k₂ = k then some v else alookup k rest

/-- Python dict write `d[k] = v`: update the first binding of `k` in place,
or append a fresh binding. -/
def aset {V : Type} (k : String) (v : V) : List (String × V) → List (String × V)
  | [] => [(k, v)]
  | (k₂, v₂) :: rest => if k₂ = k then (k, v) :: rest else (k₂, v₂) :: aset k v rest

/-- The accumulated `treeinfo_data`: section name to key/value mapping. -/
abbrev TDict := List (String × List (String × String))

/-- Interpreter state: the `treeinfo_data` dict plus the trace of attempted
effects. -/
structure RState where
  treeinfo_data : TDict
  trace : List Effect
  deriving DecidableEq, Repr

/-- Append one effect to the trace. -/
def RState.addEff (st : RState) (e : Effect) : RState :=
  { st with trace := st.trace ++ [e] }

/-- Modelled from the spec: `joinpaths` from `sysutils` (not under `src/`)
joins path components with the path separator, resolving a relative path
against a root. -/
def joinpaths (a b : String) : String := a ++ "/" ++ b

/-- Perform an OS effect: record it in the trace and report the outcome the
environment assigns to it. -/
def perform (env : Env) (e : Effect) (st : RState) : Except PyErr Bool × RState :=
  (match env.osOk e with
   | none => .ok false
   | some err => .error err, st.addEff e)

/-- `_exists(root, p)` (treebuilder.py lines 65-67): `p[0]` faults with
`IndexError` on the empty string; otherwise a path with a leading separator
is globbed verbatim and a relative one is resolved against `root`, reporting
whether `len(glob.glob(p)) > 0`. -/
def _exists (env : Env) (root p : String) : Except PyErr Bool :=
  match p.data with
  | [] => .error .indexError
  | c :: _ =>
    if c != '/' then .ok (decide (0 < (env.glob (joinpaths root p)).length))
    else .ok (decide (0 < (env.glob p).length))

/-! Kernel discovery (`findkernels`, treebuilder.py lines 42-63).  The
pattern `vmlinuz-(?P<version>.+?\.(?P<arch>[a-z0-9_]+)(\.(?P<flavor>debug|PAE|PAEdebug|smp|xen))?)$`
is embedded as an explicit matcher on character lists: the lazy `.+?` looks
for the earliest split whose remainder completes the match, `.` matches any
character except a newline, `[a-z0-9_]+` is greedy, and the anchored `$`
forces the version group to span to the end of the name. -/

/-- Character class `[a-z0-9_]` of the `arch` group. -/
def isArchChar (c : Char) : Bool :=
  (decide ('a' ≤ c) && decide (c ≤ 'z')) || (decide ('0' ≤ c) && decide (c ≤ '9')) || c = '_'

/-- The closed set of kernel flavors, in the source's alternation order. -/
def flavorsL : List (List Char) :=
  ["debug".data, "PAE".data, "PAEdebug".data, "smp".data, "xen".data]

/-- Greedy `[a-z0-9_]+`: split off the maximal arch-character prefix. -/
def takeArchRun : List Char → List Char × List Char
  | [] => ([], [])
  | c :: cs =>
    if isArchChar c then ((c :: (takeArchRun cs).1), (takeArchRun cs).2)
    else ([], c :: cs)

/-- The flavor alternation followed by the anchor
(`(debug|PAE|PAEdebug|smp|xen)` then `$`): the engine tries the
alternatives in the source's order, and after one is consumed, `$` — with
no MULTILINE flag — accepts either the end of the string or a position
just before a single newline that ends the string.  Returns the flavor
capture together with the final newline `$` skipped over, if any. -/
def flavorAlt : List (List Char) → List Char → Option (List Char × List Char)
  | [], _ => none
  | fl :: rest, t =>
    if t = fl then some (fl, [])
    else if t = fl ++ ['\n'] then some (fl, ['\n'])
    else flavorAlt rest t

/-- Match `[a-z0-9_]+(\.(debug|PAE|PAEdebug|smp|xen))?$` on `t` (the text
after the mandatory dot), returning the arch and optional flavor captures
plus the final newline the anchor skipped, if any.  A
shorter-than-maximal arch run would be followed by a further arch
character — not by a dot, a string-ending newline or the end of the
string — so the greedy `+` needs no backtracking here; when the optional
group cannot start (no dot follows the arch), `$` accepts exactly the
empty remainder or a lone final newline. -/
def matchAfterDot (t : List Char) : Option (List Char × Option (List Char) × List Char) :=
  let a := (takeArchRun t).1
  let rest := (takeArchRun t).2
  if a.isEmpty then none
  else
    match rest with
    | [] => some (a, none, [])
    | c :: t₂ =>
      if c = '\n' && t₂.isEmpty then some (a, none, ['\n'])
      else if c = '.' then
        match flavorAlt flavorsL t₂ with
        | some (fl, leftover) => some (a, some fl, leftover)
        | none => none
      else none

/-- The lazy `.+?\.` search: scan left to right, at each dot try to finish
the match on the remainder, otherwise absorb the character into the lazy
prefix (which `.` forbids to cross a newline). -/
def kreGo : List Char → Option (List Char × Option (List Char) × List Char)
  | [] => none
  | c :: rest =>
    if c = '.' then
      match matchAfterDot rest with
      | some r => some r
      | none => kreGo rest
    else if c = '\n' then none
    else kreGo rest

/-- `re.match` of the kernel-name pattern: a literal `vmlinuz-` prefix, then
the version group, which the anchors force to span from there to the spot
where `$` matched — the end of the name, or just before a final newline
(the only leftovers `matchAfterDot` ever reports are the empty list and a
lone newline); the group's first character is consumed by the lazy `.+?`
before the scan starts.  Returns `(version, arch, flavor)` captures. -/
def kreMatch (name : List Char) : Option (List Char × List Char × Option (List Char)) :=
  if name.take 8 = "vmlinuz-".data then
    match name.drop 8 with
    | [] => none
    | c :: rest =>
      if c = '\n' then none
      else
        match kreGo rest with
        | some (a, f, leftover) =>
          some (if leftover.isEmpty then name.drop 8 else (name.drop 8).dropLast, a, f)
        | none => none
  else none

/-- String-level wrapper for `kreMatch`. -/
def kreMatchS (name : String) : Option (String × String × Option String) :=
  match kreMatch name.data with
  | some (v, a, f) => some (String.mk v, String.mk a, f.map String.mk)
  | none => none

/-- Python `s.replace(old, new, 1)` on character lists: replace the first
occurrence of `old` (non-empty in every use here) by `new`. -/
def replaceFirstL (old new : List Char) : List Char → List Char
  | [] => if old.isEmpty then new else []
  | c :: cs =>
    if (c :: cs).take old.length = old then new ++ (c :: cs).drop old.length
    else c :: replaceFirstL old new cs

/-- Python `s.replace(old, new, 1)` on strings. -/
def replaceFirst (s old new : String) : String :=
  String.mk (replaceFirstL old.data new.data s.data)

/-- A discovered kernel record (the `DataHolder` populated from the match
groups plus the optional associated initrd path). -/
structure Kernel where
  path : String
  version : String
  arch : String
  flavor : Option String
  initrd : Option String
  deriving DecidableEq, Repr

/-- The companion-image search of `findkernels` (lines 56-61): for
`initrd` then `initramfs`, form the candidate name by replacing the first
`vmlinuz` and appending `.img`; an existing candidate unconditionally
overwrites whatever was recorded before, and the accumulator starts unset. -/
def initrdSearch (env : Env) (root path : String) : Option String :=
  (["initrd", "initramfs"]).foldl
    (fun acc imgname =>
      let i := replaceFirst path "vmlinuz" imgname ++ ".img"
      if env.pathExists (joinpaths root i) then some i else acc)
    none

/-- `findkernels(root, kdir)` (lines 42-63): match every directory entry of
`root/kdir` against the kernel-name pattern, build a record per match (the
non-matching entries are skipped), then attach the companion initrd. -/
def findkernels (env : Env) (root : String) (kdir : String) : List Kernel :=
  let kernels := (env.listdir (joinpaths root kdir)).filterMap fun f =>
    match kreMatchS f with
    | some (v, a, fl) =>
      some (Kernel.mk (joinpaths kdir f) v a fl none)
    | none => (none : Option Kernel)
  kernels.map fun k => { k with initrd := initrdSearch env root k.path }

/-! The template interpreter (`TemplateRunner`, treebuilder.py lines
158-277).  Each handler mirrors one method; handlers take the positional
argument list of the command line and return the Python return value
(modelled as `Bool`: `True` for the `copyif`/`moveif` success reports,
`False` standing for `None`) or the raised exception, together with the
updated state. -/

/-- Modelled from the spec: `cpfile` from `sysutils` (not under `src/`)
copies one file; per the command table its only failure is a missing
source, in which case no copy is performed. -/
def cpfileP (env : Env) (src dest : String) (st : RState) : Except PyErr Bool × RState :=
  if env.pathExists src then (.ok false, st.addEff (.cpfile src dest))
  else (.error (.ioError ("cpfile: no such file " ++ src)), st)

/-- The copy loop of `install` (line 198-199): `for src in sources:
cpfile(src, self._out(dest))`, aborting at the first raised error. -/
def copyAll (env : Env) (dest : String) : List String → RState → Except PyErr Bool × RState
  | [], st => (.ok false, st)
  | src :: rest, st =>
    match cpfileP env src dest st with
    | (.ok _, st₂) => copyAll env dest rest st₂
    | (.error e, st₂) => (.error e, st₂)

/-- `install(srcglob, dest)` (lines 194-199): glob the source pattern in
`inroot`; zero matches raise `IOError`; otherwise copy every match to
`dest` in `outroot`. -/
def installH (env : Env) (ir outr srcglob dest : String) (st : RState) :
    Except PyErr Bool × RState :=
  let sources := env.glob (joinpaths ir srcglob)
  if sources.isEmpty then (.error (.ioError ("couldnt find " ++ srcglob)), st)
  else copyAll env (joinpaths outr dest) sources st

/-- `mkdir(*dirs)` (lines 201-205): for each dir resolved in `outroot`,
call `os.makedirs` unless it already is a directory. -/
def mkdirH (env : Env) (outr : String) : List String → RState → Except PyErr Bool × RState
  | [], st => (.ok false, st)
  | d :: ds, st =>
    let d₂ := joinpaths outr d
    if env.isdir d₂ then mkdirH env outr ds st
    else
      match perform env (.makedirs d₂) st with
      | (.ok _, st₂) => mkdirH env outr ds st₂
      | (.error e, st₂) => (.error e, st₂)

/-- `replace(pat, repl, *files)` (lines 207-209); the `replace` primitive
itself is from `sysutils`, modelled from the spec as an in-place regex
substitution effect whose outcome the environment decides. -/
def replaceH (env : Env) (outr pat repl : String) : List String → RState → Except PyErr Bool × RState
  | [], st => (.ok false, st)
  | f :: fs, st =>
    match perform env (.replaceInFile pat repl (joinpaths outr f)) st with
    | (.ok _, st₂) => replaceH env outr pat repl fs st₂
    | (.error e, st₂) => (.error e, st₂)

/-- `append(filename, data)` (lines 211-213): append `data` plus a newline
to the file resolved in `outroot`. -/
def appendH (env : Env) (outr filename data : String) (st : RState) :
    Except PyErr Bool × RState :=
  perform env (.appendFile (joinpaths outr filename) (data ++ "\n")) st

/-- The membership probe of the `treeinfo` handler (line 216): the source
tests `section not in self.treeinfo`, i.e. against the bound method
`treeinfo` itself rather than the `treeinfo_data` dict; the `in` operator
on a method object raises `TypeError`, unconditionally. -/
def methodMembership (_sectionName : String) : Except PyErr Bool :=
  .error (.typeError "argument of type instancemethod is not iterable")

/-- `treeinfo(section, key, *valuetoks)` (lines 215-218), embedded
faithfully: the membership probe on line 216 raises before anything is
stored; the storing code below it is unreachable. -/
def treeinfoM (st : RState) (sectionName key : String) (valuetoks : List String) :
    Except PyErr Bool × RState :=
  match methodMembership sectionName with
  | .error e => (.error e, st)
  | .ok mem =>
    let td := if mem then st.treeinfo_data else aset sectionName [] st.treeinfo_data
    match alookup sectionName td with
    | none => (.error (.keyError sectionName), st)
    | some secd =>
      (.ok false,
       { st with treeinfo_data := aset sectionName (aset key (String.intercalate " " valuetoks) secd) td })

/-- `installkernel(section, src, dest)` (lines 220-222): `install` then
`treeinfo(section, "kernel", dest)`, a raised error propagating. -/
def installkernelH (env : Env) (ir outr sec src dest : String) (st : RState) :
    Except PyErr Bool × RState :=
  match installH env ir outr src dest st with
  | (.ok _, st₂) => treeinfoM st₂ sec "kernel" [dest]
  | (.error e, st₂) => (.error e, st₂)

/-- `installinitrd(section, src, dest)` (lines 224-226): `install` then
`treeinfo(section, "initrd", dest)`. -/
def installinitrdH (env : Env) (ir outr sec src dest : String) (st : RState) :
    Except PyErr Bool × RState :=
  match installH env ir outr src dest st with
  | (.ok _, st₂) => treeinfoM st₂ sec "initrd" [dest]
  | (.error e, st₂) => (.error e, st₂)

/-- `copy(src, dest)` (lines 234-235): `cpfile` with both paths resolved in
`outroot`. -/
def copyH (env : Env) (outr src dest : String) (st : RState) : Except PyErr Bool × RState :=
  cpfileP env (joinpaths outr src) (joinpaths outr dest) st

/-- `copyif(src, dest)` (lines 237-240): if `self.exists(src)` (the
`inroot`-rooted `_exists` predicate) then copy and return `True`; the
predicate itself may raise (empty path). -/
def copyifH (env : Env) (ir outr src dest : String) (st : RState) :
    Except PyErr Bool × RState :=
  match _exists env ir src with
  | .error e => (.error e, st)
  | .ok false => (.ok false, st)
  | .ok true =>
    match copyH env outr src dest st with
    | (.ok _, st₂) => (.ok true, st₂)
    | (.error e, st₂) => (.error e, st₂)

/-- `remove(*targets)` (lines 251-253); the `remove` primitive is from
`sysutils`, modelled from the spec as a removal effect tolerating absent
targets, with the outcome of unexpected OS errors decided by the
environment. -/
def removeH (env : Env) (outr : String) : List String → RState → Except PyErr Bool × RState
  | [], st => (.ok false, st)
  | t :: ts, st =>
    match perform env (.removePath (joinpaths outr t)) st with
    | (.ok _, st₂) => removeH env outr ts st₂
    | (.error e, st₂) => (.error e, st₂)

/-- `move(src, dest)` (lines 242-244): `copy` then `remove(src)`. -/
def moveH (env : Env) (outr src dest : String) (st : RState) : Except PyErr Bool × RState :=
  match copyH env outr src dest st with
  | (.ok _, st₂) => removeH env outr [src] st₂
  | (.error e, st₂) => (.error e, st₂)

/-- `moveif(src, dest)` (lines 246-249): `copyif`, and only when it
reports a copy, `remove(src)` and return `True`. -/
def moveifH (env : Env) (ir outr src dest : String) (st : RState) :
    Except PyErr Bool × RState :=
  match copyifH env ir outr src dest st with
  | (.ok true, st₂) =>
    match removeH env outr [src] st₂ with
    | (.ok _, st₃) => (.ok true, st₃)
    | (.error e, st₃) => (.error e, st₃)
  | (.ok false, st₂) => (.ok false, st₂)
  | (.error e, st₂) => (.error e, st₂)

/-- `int(mode, 8)` for the `chmod` handler: a non-empty all-octal-digit
string parses to its base-8 value, anything else raises `ValueError` (the
sign / whitespace / `0o`-prefix forms int also accepts are never produced
by templates and are not modelled). -/
def parseOctal (s : String) : Option Nat :=
  if s.data ≠ [] ∧ s.data.all (fun c => decide ('0' ≤ c) && decide (c ≤ '7')) then
    some (s.data.foldl (fun n c => n * 8 + (c.toNat - '0'.toNat)) 0)
  else none

/-- `chmod(target, mode)` (lines 255-256). -/
def chmodH (env : Env) (outr target mode : String) (st : RState) :
    Except PyErr Bool × RState :=
  match parseOctal mode with
  | none => (.error (.valueError ("invalid literal for int with base 8: " ++ mode)), st)
  | some m => perform env (.chmodPath (joinpaths outr target) m) st

/-- `runcmd(*cmdlist)` (lines 268-277): an optional leading `chdir=<dir>`
token sets the working directory for the call; `cmd[0]` on an empty
argument list raises `IndexError`; the command itself runs through
`check_call`. -/
def runcmdH (env : Env) (st : RState) : List String → Except PyErr Bool × RState
  | [] => (.error .indexError, st)
  | c₀ :: rest =>
    if c₀.startsWith "chdir=" then
      perform env (.checkCall (some (c₀.drop 6)) rest) st
    else
      perform env (.checkCall none (c₀ :: rest)) st

/-- `hardlink(src, dest)` (lines 228-229). -/
def hardlinkH (env : Env) (outr src dest : String) (st : RState) :
    Except PyErr Bool × RState :=
  perform env (.osLink (joinpaths outr src) (joinpaths outr dest)) st

/-- `symlink(target, dest)` (lines 231-232): the link target is stored
verbatim. -/
def symlinkH (env : Env) (outr target dest : String) (st : RState) :
    Except PyErr Bool × RState :=
  perform env (.osSymlink target (joinpaths outr dest)) st

/-- `log(msg)` (lines 265-266). -/
def logH (msg : String) (st : RState) : Except PyErr Bool × RState :=
  (.ok false, st.addEff (.logInfo msg))

/-- The fixed command tuple (lines 159-162); `gconfset` is implemented but
absent from it, so it can never be dispatched. -/
def commands : List String :=
  ["install", "mkdir", "replace", "append", "treeinfo",
   "installkernel", "installinitrd", "hardlink", "symlink",
   "copy", "copyif", "move", "moveif", "remove", "chmod",
   "runcmd", "log"]

/-- Dispatch to the handler method named by `cmd` with the given positional
arguments (`f = getattr(self, cmd); f(*args)`, lines 186-187); an argument
count not accepted by the method raises `TypeError`. -/
def callCmd (env : Env) (ir outr : String) (cmd : String) (args : List String)
    (st : RState) : Except PyErr Bool × RState :=
  if cmd = "install" then
    match args with
    | [s, d] => installH env ir outr s d st
    | _ => (.error (.typeError "install: argument count"), st)
  else if cmd = "mkdir" then mkdirH env outr args st
  else if cmd = "replace" then
    match args with
    | p :: r :: fs => replaceH env outr p r fs st
    | _ => (.error (.typeError "replace: argument count"), st)
  else if cmd = "append" then
    match args with
    | [f, d] => appendH env outr f d st
    | _ => (.error (.typeError "append: argument count"), st)
  else if cmd = "treeinfo" then
    match args with
    | sec :: k :: toks => treeinfoM st sec k toks
    | _ => (.error (.typeError "treeinfo: argument count"), st)
  else if cmd = "installkernel" then
    match args with
    | [sec, s, d] => installkernelH env ir outr sec s d st
    | _ => (.error (.typeError "installkernel: argument count"), st)
  else if cmd = "installinitrd" then
    match args with
    | [sec, s, d] => installinitrdH env ir outr sec s d st
    | _ => (.error (.typeError "installinitrd: argument count"), st)
  else if cmd = "hardlink" then
    match args with
    | [s, d] => hardlinkH env outr s d st
    | _ => (.error (.typeError "hardlink: argument count"), st)
  else if cmd = "symlink" then
    match args with
    | [t, d] => symlinkH env outr t d st
    | _ => (.error (.typeError "symlink: argument count"), st)
  else if cmd = "copy" then
    match args with
    | [s, d] => copyH env outr s d st
    | _ => (.error (.typeError "copy: argument count"), st)
  else if cmd = "copyif" then
    match args with
    | [s, d] => copyifH env ir outr s d st
    | _ => (.error (.typeError "copyif: argument count"), st)
  else if cmd = "move" then
    match args with
    | [s, d] => moveH env outr s d st
    | _ => (.error (.typeError "move: argument count"), st)
  else if cmd = "moveif" then
    match args with
    | [s, d] => moveifH env ir outr s d st
    | _ => (.error (.typeError "moveif: argument count"), st)
  else if cmd = "remove" then removeH env outr args st
  else if cmd = "chmod" then
    match args with
    | [t, m] => chmodH env outr t m st
    | _ => (.error (.typeError "chmod: argument count"), st)
  else if cmd = "runcmd" then runcmdH env st args
  else if cmd = "log" then
    match args with
    | [m] => logH m st
    | _ => (.error (.typeError "log: argument count"), st)
  else (.error (.valueError ("not dispatchable: " ++ cmd)), st)

/-- One command line inside the `try` block (lines 182-187): the membership
check against the fixed command tuple raises `ValueError` for an unknown
name, otherwise the named handler runs. -/
def dispatch (env : Env) (ir outr : String) (cmd : String) (args : List String)
    (st : RState) : Except PyErr Bool × RState :=
  if commands.contains cmd then callCmd env ir outr cmd args st
  else (.error (.valueError ("unknown command " ++ cmd)), st)

/-- The interpreter loop `run` (lines 178-192), carrying the 1-based
`enumerate` counter.  Per line: log it at debug level; `line[0]` (outside
the `try`) raises `IndexError` on an empty line, which nothing catches; a
caught failure logs the failing line, then either re-raises (strict mode)
or also logs the error text and continues with the next line.  The result
pairs the escaping exception, if any, with the final state. -/
def runFrom (env : Env) (ir outr : String) (fatalerrors : Bool) :
    Nat → List (List String) → RState → Option PyErr × RState
  | _, [], st => (none, st)
  | num, line :: rest, st =>
    let st₀ := st.addEff (.logDebug num line)
    match line with
    | [] => (some .indexError, st₀)
    | cmd :: args =>
      match dispatch env ir outr cmd args st₀ with
      | (.ok _, st₂) => runFrom env ir outr fatalerrors (num + 1) rest st₂
      | (.error e, st₂) =>
        let st₃ := st₂.addEff (.logErrorLine line)
        if fatalerrors then (some e, st₃)
        else runFrom env ir outr fatalerrors (num + 1) rest (st₃.addEff (.logErrorMsg e))

/-- `TemplateRunner.run` over a whole parsed template, starting the line
counter at 1 as `enumerate(self.template, 1)` does. -/
def runT (env : Env) (ir outr : String) (fatalerrors : Bool)
    (template : List (List String)) (st : RState) : Option PyErr × RState :=
  runFrom env ir outr fatalerrors 1 template st

/-- The interpreter's initial state: `treeinfo_data` starts empty and no
effect has been attempted. -/
def initState : RState := { treeinfo_data := [], trace := [] }

/-! The variable binder (`BaseBuilder`, lines 69-93) and the finalize step
(`TreeBuilder.implantisomd5`, lines 139-143). -/

/-- The fields `BaseBuilder.__init__` stores (lines 70-75). -/
structure BaseBuilderData where
  product : String
  arch : ArchData
  inroot : String
  outroot : String
  deriving DecidableEq, Repr

/-- `BaseBuilder.getdefaults` (lines 77-81): the default variable mapping,
with the `exists` entry being the closure `lambda p: _exists(self.inroot, p)`
identified here by the root it captures. -/
def getdefaults (b : BaseBuilderData) : List (String × PyVal) :=
  [("arch", .vArch b.arch), ("product", .vStr b.product),
   ("inroot", .vStr b.inroot), ("outroot", .vStr b.outroot),
   ("basearch", .vStr b.arch.basearch), ("libdir", .vStr b.arch.libdir),
   ("exists", .vExistsFn b.inroot)]

/-- Python `dict.setdefault(k, v)`: bind `k` to `v` only when `k` is not
already bound. -/
def setdefault (vars : List (String × PyVal)) (k : String) (v : PyVal) :
    List (String × PyVal) :=
  if (alookup k vars).isSome then vars else vars ++ [(k, v)]

/-- The merge loop of `runtemplate` (lines 84-85): `for k,v in
self.getdefaults().items(): variables.setdefault(k,v)`.  The keys of
`getdefaults` are distinct, so the dict's unspecified iteration order does
not affect any lookup. -/
def setdefaultAll (vars : List (String × PyVal)) (defaults : List (String × PyVal)) :
    List (String × PyVal) :=
  defaults.foldl (fun acc kv => setdefault acc kv.1 kv.2) vars

/-- `BaseBuilder.runtemplate` (lines 83-93): merge the defaults under the
caller's variables, hand template file and merged variables to the external
parser, and run the resulting command sequence with a fresh interpreter
bound to `inroot`/`outroot` (and `fatalerrors` left at its default
`False`). -/
def runtemplate (env : Env) (b : BaseBuilderData) (templatefile : String)
    (extraVars : List (String × PyVal)) : Option PyErr × RState :=
  let vars := setdefaultAll extraVars (getdefaults b)
  let template := env.parse templatefile vars
  runT env b.inroot b.outroot false template initState

/-- Python tuple-unpacking of a string into two names, as
`for section, data in self.treeinfo_data` does to each dict KEY (iterating
a dict yields its keys, not its items): exactly-two-character strings
unpack into two one-character strings, anything else raises `ValueError`. -/
def unpack2 (k : String) : Except PyErr (String × String) :=
  match k.data with
  | [c₁, c₂] => .ok (String.mk [c₁], String.mk [c₂])
  | _ => .error (.valueError "unpack")

/-- Python substring test `needle in hay` restricted to what
`implantisomd5` needs: does `needle` occur contiguously in `hay`? -/
def startsWithL : List Char → List Char → Bool
  | _, [] => true
  | [], _ :: _ => false
  | c :: cs, p :: ps => c = p && startsWithL cs ps

/-- Substring occurrence on character lists. -/
def isSubstrL (needle : List Char) : List Char → Bool
  | [] => needle.isEmpty
  | c :: cs => startsWithL (c :: cs) needle || isSubstrL needle cs

/-- The loop body of `implantisomd5` (lines 139-143), embedded faithfully:
iterate the KEYS of `treeinfo_data`, unpack each key string into
`(section, data)`, test `'boot.iso' in data` as a substring of the
one-character string `data`, and in the (unreachable) positive case read
`self.outputdir` — an attribute nothing in the class ever sets, hence
`AttributeError` — and then index the string `data` with the string key
`'boot.iso'`, a `TypeError`; `check_call(["implantisomd5", iso])` can
therefore never be reached, so the invocation trace stays empty. -/
def implantGo (outputdir : Option String) :
    List String → List Effect → Option PyErr × List Effect
  | [], tr => (none, tr)
  | k :: ks, tr =>
    match unpack2 k with
    | .error e => (some e, tr)
    | .ok (_, data) =>
      if isSubstrL "boot.iso".data data.data then
        match outputdir with
        | none => (some (.attributeError "outputdir"), tr)
        | some _ =>
          (some (.typeError "string indices must be integers"), tr)
      else implantGo outputdir ks tr

/-- `TreeBuilder.implantisomd5` (lines 139-143) over an accumulated
`treeinfo_data` mapping, returning the escaping exception, if any, and the
trace of external-tool invocations. -/
def implantisomd5 (outputdir : Option String) (tinfo : TDict) :
    Option PyErr × List Effect :=
  implantGo outputdir (tinfo.map Prod.fst) []

/-- Composition the specification describes for `installkernel` and
`installinitrd`: run `install(src, dest)`, then `treeinfo(section, key,
dest)`, with a failure of the first step propagating before the second
executes. -/
def installThenTreeinfo (env : Env) (ir outr key sec src dest : String) (st : RState) :
    Except PyErr Bool × RState :=
  match installH env ir outr src dest st with
  | (.ok _, st₂) => treeinfoM st₂ sec key [dest]
  | (.error e, st₂) => (.error e, st₂)

/-- A minimal environment: nothing exists, every glob is empty, every OS
effect succeeds. -/
def env0 : Env :=
  { glob := fun _ => [], pathExists := fun _ => false, isdir := fun _ => false,
    listdir := fun _ => [], osOk := fun _ => none, parse := fun _ _ => [] }

/-- An environment in which every path exists, every glob returns one match
named `f1`, and the boot directory lists a single kernel image. -/
def env1 : Env :=
  { glob := fun _ => ["f1"], pathExists := fun _ => true, isdir := fun _ => false,
    listdir := fun _ => ["vmlinuz-5.10.0.x86_64"], osOk := fun _ => none,
    parse := fun _ _ => [] }

/-- The kernel record `findkernels` discovers from `env1`. -/
def krec : Kernel :=
  { path := "boot/vmlinuz-5.10.0.x86_64", version := "5.10.0.x86_64",
    arch := "x86_64", flavor := none,
    initrd := some "boot/initramfs-5.10.0.x86_64.img" }

/-- An environment whose boot directory lists a single kernel image whose
name carries a trailing newline (a legal directory-entry byte). -/
def envN : Env :=
  { glob := fun _ => [], pathExists := fun _ => false, isdir := fun _ => false,
    listdir := fun _ => ["vmlinuz-5.10.0.x86_64\n"], osOk := fun _ => none,
    parse := fun _ _ => [] }

/-- A concrete builder for the variable-binder witnesses. -/
def b0 : BaseBuilderData :=
  { product := "Fedora", arch := { basearch := "x86_64", libdir := "lib64" },
    inroot := "/in", outroot := "/out" }

/-- Number of dots in a character list (used to reason about which splits
of a version string the kernel-name pattern can accept). -/
def countDots : List Char → Nat
  | [] => 0
  | c :: cs => (if c = '.' then 1 else 0) + countDots cs

/-- All suffixes of `w` that start right after a dot, i.e. the `w₂` with
`w = u ++ '.' :: w₂`. -/
def dotSuffixes : List Char → List (List Char)
  | [] => []
  | c :: cs => if c = '.' then cs :: dotSuffixes cs else dotSuffixes cs

/-- Does `w ++ "." ++ a` also admit a reading in which `a` is a flavor?
That happens exactly when `a` is a flavor word and `w` itself ends in a
dot followed by a non-empty arch token.  When a name admits both readings
the pattern's lazy prefix prefers the earlier split, i.e. the flavored
reading. -/
def hasFlavoredReading (w a : List Char) : Bool :=
  flavorsL.contains a && (dotSuffixes w).any (fun s => !s.isEmpty && s.all isArchChar)

/-! Theorems.  Helper lemmas come first, then one theorem (plus witness
where required) per specification claim. -/

theorem alookup_append_some {V : Type} (k : String) (l₁ l₂ : List (String × V)) (v : V)
    (h : alookup k l₁ = some v) : alookup k (l₁ ++ l₂) = some v := by
  induction l₁ with
  | nil => simp [alookup] at h
  | cons p rest ih =>
    rcases p with ⟨k₂, v₂⟩
    by_cases hk : k₂ = k
    · simp [alookup, hk] at h ⊢; exact h
    · simp [alookup, hk] at h ⊢; exact ih h

theorem alookup_append_none {V : Type} (k : String) (l₁ l₂ : List (String × V))
    (h : alookup k l₁ = none) : alookup k (l₁ ++ l₂) = alookup k l₂ := by
  induction l₁ with
  | nil => simp
  | cons p rest ih =>
    rcases p with ⟨k₂, v₂⟩
    by_cases hk : k₂ = k
    · simp [alookup, hk] at h
    · simp [alookup, hk] at h ⊢; exact ih h

/-- C1: the claim says `treeinfo(s, k, vs)` joins the value tokens and
stores them under `treeInfoData[s][k]` without failing.  The code instead
tests membership against the bound method `self.treeinfo` (line 216), which
raises `TypeError` on every call before anything is stored; in particular
the two `treeinfo` calls of the claim's example leave `treeinfo_data`
empty. -/
theorem treeinfo_always_raises_typeerror :
    (∀ (st : RState) (sec key : String) (toks : List String),
       treeinfoM st sec key toks =
         (.error (.typeError "argument of type instancemethod is not iterable"), st)) ∧
    (∀ (env : Env) (ir outr : String),
       (runT env ir outr false
         [["treeinfo", "images-x86_64", "kernel", "vmlinuz"],
          ["treeinfo", "images-x86_64", "initrd", "initrd.img"]] initState).2.treeinfo_data
         = []) := by
  constructor
  · intro st sec key toks
    rfl
  · intro env ir outr
    rfl

/-- C6: `installkernel(section, src, dest)` is exactly the composition
`install(src, dest)` then `treeinfo(section, "kernel", dest)` (errors of
the first step propagating), and `installinitrd` is the same composition
with key `"initrd"`, with identical effects on state and identical failure
behaviour. -/
theorem installkernel_installinitrd_are_compositions :
    ∀ (env : Env) (ir outr sec src dest : String) (st : RState),
      installkernelH env ir outr sec src dest st =
        installThenTreeinfo env ir outr "kernel" sec src dest st ∧
      installinitrdH env ir outr sec src dest st =
        installThenTreeinfo env ir outr "initrd" sec src dest st := by
  intro env ir outr sec src dest st
  exact ⟨rfl, rfl⟩

theorem implantGo_trace (od : Option String) :
    ∀ (ks : List String) (tr : List Effect), (implantGo od ks tr).2 = tr := by
  intro ks
  induction ks with
  | nil => intro tr; rfl
  | cons k rest ih =>
    intro tr
    simp only [implantGo]
    rcases h : unpack2 k with e | ⟨s, d⟩
    · rfl
    · by_cases hs : isSubstrL "boot.iso".data d.data = true
      · simp only [hs, if_true]
        rcases od with _ | od₂ <;> rfl
      · simp only [Bool.not_eq_true] at hs
        simp only [hs, Bool.false_eq_true, if_false]
        exact ih tr

/-- C9: the claim says finalize invokes the checksum tool once per
`(section, data)` pair whose data contains `boot.iso`.  The code iterates
`self.treeinfo_data` directly (line 140), which yields the dict's KEYS, and
tuple-unpacks each key string: the tool is never invoked for any metadata
mapping, and on the claim's own shape of data (a section named
`images-x86_64` with a `boot.iso` entry) the loop raises `ValueError` at
the unpacking of the 13-character key. -/
theorem implantisomd5_never_invokes_tool :
    (∀ (od : Option String) (tinfo : TDict), (implantisomd5 od tinfo).2 = []) ∧
    implantisomd5 none [("images-x86_64", [("boot.iso", "images/boot.iso")])] =
      (some (.valueError "unpack"), []) := by
  constructor
  · intro od tinfo
    exact implantGo_trace od (tinfo.map Prod.fst) []
  · rfl

/-- C10: the `exists` predicate bound to `inroot` (line 65-67, used by
`copyif`/`moveif`) inspects `p[0]` before resolving, so it raises
`IndexError` on the empty string instead of returning a boolean — also when
reached through `copyif` — and on every non-empty path it returns whether
the glob of the resolved path (verbatim when the first character is the
path separator, `inroot`-prefixed otherwise) has at least one match. -/
theorem exists_faults_on_empty_path :
    (∀ (env : Env) (root : String), _exists env root "" = .error .indexError) ∧
    (∀ (env : Env) (root p : String) (c : Char) (cs : List Char), p.data = c :: cs →
       _exists env root p =
         .ok (decide (0 < (env.glob (if c = '/' then p else joinpaths root p)).length))) ∧
    (∀ (env : Env) (ir outr dest : String) (st : RState),
       copyifH env ir outr "" dest st = (.error .indexError, st)) := by
  refine ⟨fun env root => rfl, ?_, fun env ir outr dest st => rfl⟩
  intro env root p c cs h
  simp only [_exists, h]
  by_cases hc : c = '/'
  · simp [hc]
  · simp [hc]

/-- Witness for the C10 theorem at concrete inputs: the one-character
relative path `x` resolves against the root and reports no match in the
empty environment. -/
theorem exists_faults_on_empty_path_witness :
    _exists env0 "root" "x" = .ok false := by
  have h := exists_faults_on_empty_path.2.1 env0 "root" "x" 'x' [] rfl
  simpa using h

/-- C4: every kernel record produced by `findkernels` carries as `initrd`
the result of checking, in order, the `initrd` candidate then the
`initramfs` candidate (each formed by replacing the first `vmlinuz` in the
kernel path and appending `.img`): an existing initramfs candidate wins
unconditionally over an existing initrd one, and when neither exists the
field stays unset. -/
theorem findkernels_initrd_last_checked_wins :
    ∀ (env : Env) (root kdir : String) (k : Kernel), k ∈ findkernels env root kdir →
      k.initrd =
        (if env.pathExists
             (joinpaths root (replaceFirst k.path "vmlinuz" "initramfs" ++ ".img"))
         then some (replaceFirst k.path "vmlinuz" "initramfs" ++ ".img")
         else if env.pathExists
             (joinpaths root (replaceFirst k.path "vmlinuz" "initrd" ++ ".img"))
         then some (replaceFirst k.path "vmlinuz" "initrd" ++ ".img")
         else none) := by
  intro env root kdir k hk
  simp only [findkernels, List.mem_map] at hk
  obtain ⟨k₂, _, hk₂⟩ := hk
  subst hk₂
  rfl

/-- Witness for the C4 theorem: in `env1` both companion images exist for
the discovered kernel, and the recorded initrd is the initramfs one. -/
theorem findkernels_initrd_last_checked_wins_witness :
    krec ∈ findkernels env1 "/" "boot" ∧
    krec.initrd = some "boot/initramfs-5.10.0.x86_64.img" := by
  have hmem : krec ∈ findkernels env1 "/" "boot" := by decide
  have h := findkernels_initrd_last_checked_wins env1 "/" "boot" krec hmem
  exact ⟨hmem, by simpa using h⟩

theorem copyAll_ok (env : Env) (dest : String) :
    ∀ (srcs : List String) (st : RState), (∀ q ∈ srcs, env.pathExists q = true) →
      copyAll env dest srcs st =
        (.ok false, { st with trace := st.trace ++ srcs.map (fun q => Effect.cpfile q dest) }) := by
  intro srcs
  induction srcs with
  | nil => intro st _; simp [copyAll]
  | cons q rest ih =>
    intro st h
    have hq : env.pathExists q = true := h q (List.mem_cons_self q rest)
    have hrest : ∀ p ∈ rest, env.pathExists p = true :=
      fun p hp => h p (List.mem_cons_of_mem q hp)
    simp only [copyAll, cpfileP, hq, if_true]
    rw [ih _ hrest]
    simp [RState.addEff]

/-- C5: provided every glob match is an existing file (which is what
`glob.glob` returns), `install(srcGlob, dest)` copies every match of
`srcGlob` resolved against `inroot` to `dest` resolved against `outroot`;
it fails — with the `IOError` lookup failure — exactly when the glob
matches zero files, and on that failure no copy is performed (the state is
untouched). -/
theorem install_fails_iff_zero_matches :
    ∀ (env : Env) (ir outr s d : String) (st : RState),
      (∀ q ∈ env.glob (joinpaths ir s), env.pathExists q = true) →
      (env.glob (joinpaths ir s) = [] →
         installH env ir outr s d st = (.error (.ioError ("couldnt find " ++ s)), st)) ∧
      (env.glob (joinpaths ir s) ≠ [] →
         installH env ir outr s d st =
           (.ok false,
            { st with trace := st.trace ++
                (env.glob (joinpaths ir s)).map (fun q => Effect.cpfile q (joinpaths outr d)) })) ∧
      ((installH env ir outr s d st).1 = .error (.ioError ("couldnt find " ++ s)) ↔
         env.glob (joinpaths ir s) = []) := by
  intro env ir outr s d st hex
  have h₁ : env.glob (joinpaths ir s) = [] →
      installH env ir outr s d st = (.error (.ioError ("couldnt find " ++ s)), st) := by
    intro h0
    simp [installH, h0]
  have h₂ : env.glob (joinpaths ir s) ≠ [] →
      installH env ir outr s d st =
        (.ok false,
         { st with trace := st.trace ++
             (env.glob (joinpaths ir s)).map (fun q => Effect.cpfile q (joinpaths outr d)) }) := by
    intro h0
    have hne : (env.glob (joinpaths ir s)).isEmpty = false := by
      simpa [List.isEmpty_iff] using h0
    simp only [installH, hne, Bool.false_eq_true, if_false]
    exact copyAll_ok env (joinpaths outr d) (env.glob (joinpaths ir s)) st hex
  refine ⟨h₁, h₂, ?_⟩
  constructor
  · intro hfail
    by_contra h0
    rw [h₂ h0] at hfail
    simp at hfail
  · intro h0
    rw [h₁ h0]

/-- Witness for the C5 theorem: in `env1` the glob matches `f1` (which
exists), so `install` succeeds and records exactly the copy of `f1` to the
out-root destination; the failure characterization reports no failure. -/
theorem install_fails_iff_zero_matches_witness :
    installH env1 "/in" "/out" "*.cfg" "boot/x.cfg" initState =
      (.ok false, { treeinfo_data := [], trace := [Effect.cpfile "f1" "/out/boot/x.cfg"] }) ∧
    ¬ env1.glob (joinpaths "/in" "*.cfg") = [] := by
  have hex : ∀ q ∈ env1.glob (joinpaths "/in" "*.cfg"), env1.pathExists q = true := by
    decide
  have h := install_fails_iff_zero_matches env1 "/in" "/out" "*.cfg" "boot/x.cfg" initState hex
  have hne : env1.glob (joinpaths "/in" "*.cfg") ≠ [] := by decide
  refine ⟨?_, hne⟩
  have h₂ := h.2.1 hne
  simpa [initState, joinpaths, env1] using h₂

/-- C2: per-line failure policy of the interpreter loop.  When dispatching
a (non-empty) line fails: in strict mode the error propagates immediately
with the failing line logged and the remaining lines never touched; in
non-strict mode the loop logs the failing line and its error and then
executes exactly the remaining lines from the logged state; and a run over
any template of non-empty lines completes (returns no escaping exception)
in non-strict mode. -/
theorem run_per_line_failure_policy :
    ∀ (env : Env) (ir outr : String) (num : Nat) (cmd : String) (args : List String)
      (rest : List (List String)) (st st₂ : RState) (e : PyErr),
      dispatch env ir outr cmd args (st.addEff (.logDebug num (cmd :: args))) = (.error e, st₂) →
      (runFrom env ir outr true num ((cmd :: args) :: rest) st =
         (some e, st₂.addEff (.logErrorLine (cmd :: args)))) ∧
      (runFrom env ir outr false num ((cmd :: args) :: rest) st =
         runFrom env ir outr false (num + 1) rest
           ((st₂.addEff (.logErrorLine (cmd :: args))).addEff (.logErrorMsg e))) ∧
      (∀ (num₂ : Nat) (lines : List (List String)) (st₃ : RState),
         (∀ l ∈ lines, l ≠ []) → (runFrom env ir outr false num₂ lines st₃).1 = none) := by
  intro env ir outr num cmd args rest st st₂ e h
  refine ⟨?_, ?_, ?_⟩
  · simp only [runFrom, h]
    simp
  · simp only [runFrom, h]
    simp
  · intro num₂ lines
    induction lines generalizing num₂ with
    | nil => intro st₃ _; rfl
    | cons l rest₂ ih =>
      intro st₃ hne
      have hl : l ≠ [] := hne l (List.mem_cons_self l rest₂)
      have hrest : ∀ l₂ ∈ rest₂, l₂ ≠ [] :=
        fun l₂ h₂ => hne l₂ (List.mem_cons_of_mem l h₂)
      rcases l with _ | ⟨c, as⟩
      · exact absurd rfl hl
      · simp only [runFrom]
        rcases hd : dispatch env ir outr c as (st₃.addEff (.logDebug num₂ (c :: as))) with ⟨r, st₄⟩
        rcases r with e₂ | b
        · exact ih (num₂ + 1) _ hrest
        · exact ih (num₂ + 1) _ hrest

/-- Witness for the C2 theorem: a failing `install` line (empty glob in
`env0`) followed by a `log` line.  In strict mode the run stops at the
failure and the `log` line leaves no trace; in non-strict mode the run
completes, the failure is logged, and the `log` line still executes. -/
theorem run_per_line_failure_policy_witness :
    runFrom env0 "in" "out" true 1 [["install", "a", "b"], ["log", "hi"]] initState =
      (some (.ioError "couldnt find a"),
       { treeinfo_data := [],
         trace := [.logDebug 1 ["install", "a", "b"], .logErrorLine ["install", "a", "b"]] }) ∧
    runFrom env0 "in" "out" false 1 [["install", "a", "b"], ["log", "hi"]] initState =
      (none,
       { treeinfo_data := [],
         trace := [.logDebug 1 ["install", "a", "b"], .logErrorLine ["install", "a", "b"],
                   .logErrorMsg (.ioError "couldnt find a"),
                   .logDebug 2 ["log", "hi"], .logInfo "hi"] }) ∧
    (runFrom env0 "in" "out" false 1 [["install", "a", "b"], ["log", "hi"]] initState).1 =
      none := by
  have h := run_per_line_failure_policy env0 "in" "out" 1 "install" ["a", "b"]
    [["log", "hi"]] initState
    { treeinfo_data := [], trace := [.logDebug 1 ["install", "a", "b"]] }
    (.ioError "couldnt find a") rfl
  refine ⟨?_, ?_, ?_⟩
  · rw [h.1]; rfl
  · rw [h.2.1]; rfl
  · exact h.2.2 1 [["install", "a", "b"], ["log", "hi"]] initState (by decide)

theorem setdefault_keeps_present (vars : List (String × PyVal)) (k₂ : String) (v₂ : PyVal)
    (k : String) (v : PyVal) (h : alookup k vars = some v) :
    alookup k (setdefault vars k₂ v₂) = some v := by
  unfold setdefault
  by_cases hs : (alookup k₂ vars).isSome
  · simp [hs, h]
  · simp only [hs, Bool.false_eq_true, if_false]
    exact alookup_append_some k vars [(k₂, v₂)] v h

theorem setdefaultAll_keeps_present :
    ∀ (defaults vars : List (String × PyVal)) (k : String) (v : PyVal),
      alookup k vars = some v → alookup k (setdefaultAll vars defaults) = some v := by
  intro defaults
  induction defaults with
  | nil => intro vars k v h; exact h
  | cons p rest ih =>
    intro vars k v h
    exact ih _ k v (setdefault_keeps_present vars p.1 p.2 k v h)

theorem setdefaultAll_skips_other_keys :
    ∀ (defaults vars : List (String × PyVal)) (k : String),
      (∀ p ∈ defaults, p.1 ≠ k) →
      alookup k (setdefaultAll vars defaults) = alookup k vars := by
  intro defaults
  induction defaults with
  | nil => intro vars k _; rfl
  | cons p rest ih =>
    intro vars k h
    have hp : p.1 ≠ k := h p (List.mem_cons_self p rest)
    have hrest : ∀ q ∈ rest, q.1 ≠ k := fun q hq => h q (List.mem_cons_of_mem p hq)
    have hstep : alookup k (setdefault vars p.1 p.2) = alookup k vars := by
      unfold setdefault
      by_cases hs : (alookup p.1 vars).isSome
      · simp [hs]
      · simp only [hs, Bool.false_eq_true, if_false]
        rcases hv : alookup k vars with _ | v
        · rw [alookup_append_none k vars [(p.1, p.2)] hv]
          simp [alookup, hp]
        · exact alookup_append_some k vars [(p.1, p.2)] v hv
    rw [show setdefaultAll vars (p :: rest) = setdefaultAll (setdefault vars p.1 p.2) rest
          from rfl,
        ih _ k hrest, hstep]

theorem setdefaultAll_fills_absent :
    ∀ (defaults vars : List (String × PyVal)) (k : String) (v : PyVal),
      (defaults.map Prod.fst).Nodup →
      alookup k vars = none → alookup k defaults = some v →
      alookup k (setdefaultAll vars defaults) = some v := by
  intro defaults
  induction defaults with
  | nil => intro vars k v _ _ hd; simp [alookup] at hd
  | cons p rest ih =>
    intro vars k v hnd hv hd
    rcases p with ⟨k₂, v₂⟩
    simp only [List.map_cons, List.nodup_cons] at hnd
    by_cases hk : k₂ = k
    · subst hk
      simp only [alookup, if_true] at hd
      injection hd with hd
      subst hd
      have hstep : setdefault vars k₂ v₂ = vars ++ [(k₂, v₂)] := by
        unfold setdefault
        simp [hv]
      rw [show setdefaultAll vars ((k₂, v₂) :: rest) =
            setdefaultAll (setdefault vars k₂ v₂) rest from rfl, hstep]
      have hskip : ∀ q ∈ rest, q.1 ≠ k₂ := by
        intro q hq hq₂
        exact hnd.1 (hq₂ ▸ List.mem_map_of_mem Prod.fst hq)
      rw [setdefaultAll_skips_other_keys rest _ k₂ hskip,
          alookup_append_none k₂ vars [(k₂, v₂)] hv]
      simp [alookup]
    · simp only [alookup, hk, if_false] at hd
      have hv₂ : alookup k (setdefault vars k₂ v₂) = none := by
        unfold setdefault
        by_cases hs : (alookup k₂ vars).isSome
        · simp [hs, hv]
        · simp only [hs, Bool.false_eq_true, if_false]
          rw [alookup_append_none k vars [(k₂, v₂)] hv]
          simp [alookup, hk]
      exact ih _ k v hnd.2 hv₂ hd

/-- C8: `runtemplate` merges the defaults under the caller's variables with
`setdefault`, so every key the caller supplied keeps its caller value,
every default key the caller did not supply is present with its default
value, and the merged mapping is exactly what is handed to the external
parser (whose command sequence the fresh interpreter then runs). -/
theorem runtemplate_merges_defaults_under_extras :
    ∀ (env : Env) (b : BaseBuilderData) (tf : String) (extraVars : List (String × PyVal)),
      (∀ (k : String) (v : PyVal), alookup k extraVars = some v →
         alookup k (setdefaultAll extraVars (getdefaults b)) = some v) ∧
      (∀ (k : String) (v : PyVal), alookup k extraVars = none →
         alookup k (getdefaults b) = some v →
         alookup k (setdefaultAll extraVars (getdefaults b)) = some v) ∧
      runtemplate env b tf extraVars =
        runT env b.inroot b.outroot false
          (env.parse tf (setdefaultAll extraVars (getdefaults b))) initState := by
  intro env b tf extraVars
  refine ⟨?_, ?_, rfl⟩
  · intro k v h
    exact setdefaultAll_keeps_present (getdefaults b) extraVars k v h
  · intro k v hnone hdef
    have hnd : ((getdefaults b).map Prod.fst).Nodup := by
      have : (getdefaults b).map Prod.fst =
          ["arch", "product", "inroot", "outroot", "basearch", "libdir", "exists"] := rfl
      rw [this]
      decide
    exact setdefaultAll_fills_absent (getdefaults b) extraVars k v hnd hnone hdef

/-- Witness for the C8 theorem with builder `b0` and one caller-supplied
variable: the caller's `product` value survives the merge and the unset
default `basearch` is filled in from the defaults. -/
theorem runtemplate_merges_defaults_under_extras_witness :
    alookup "product" (setdefaultAll [("product", PyVal.vOpaque 7)] (getdefaults b0)) =
      some (PyVal.vOpaque 7) ∧
    alookup "basearch" (setdefaultAll [("product", PyVal.vOpaque 7)] (getdefaults b0)) =
      some (PyVal.vStr "x86_64") := by
  have h := runtemplate_merges_defaults_under_extras env0 b0 "x86.tmpl"
    [("product", PyVal.vOpaque 7)]
  exact ⟨h.1 "product" (PyVal.vOpaque 7) rfl,
         h.2.1 "basearch" (PyVal.vStr "x86_64") rfl rfl⟩

theorem countDots_append (l₁ l₂ : List Char) :
    countDots (l₁ ++ l₂) = countDots l₁ + countDots l₂ := by
  induction l₁ with
  | nil => simp [countDots]
  | cons c cs ih => simp [countDots, ih]; omega

theorem countDots_arch_zero :
    ∀ (a : List Char), (∀ c ∈ a, isArchChar c = true) → countDots a = 0 := by
  intro a
  induction a with
  | nil => intro _; rfl
  | cons c cs ih =>
    intro h
    have hc : isArchChar c = true := h c (List.mem_cons_self c cs)
    have hcd : ¬ c = '.' := by
      intro he
      subst he
      exact absurd hc (by decide)
    simp [countDots, hcd, ih (fun x hx => h x (List.mem_cons_of_mem c hx))]

theorem countDots_flavor_zero (f : List Char) (hf : flavorsL.contains f = true) :
    countDots f = 0 := by
  have hm : f ∈ flavorsL := by simpa using hf
  fin_cases hm <;> decide

theorem takeArchRun_append :
    ∀ (a rest : List Char), (∀ c ∈ a, isArchChar c = true) →
      (∀ c, rest.head? = some c → isArchChar c = false) →
      takeArchRun (a ++ rest) = (a, rest) := by
  intro a
  induction a with
  | nil =>
    intro rest _ hh
    cases rest with
    | nil => rfl
    | cons c cs =>
      have h := hh c rfl
      simp [takeArchRun, h]
  | cons c a₂ ih =>
    intro rest ha hh
    have hc : isArchChar c = true := ha c (List.mem_cons_self c a₂)
    have ha₂ : ∀ x ∈ a₂, isArchChar x = true :=
      fun x hx => ha x (List.mem_cons_of_mem c hx)
    simp [takeArchRun, hc, ih rest ha₂ hh]

theorem takeArchRun_spec :
    ∀ t : List Char, t = (takeArchRun t).1 ++ (takeArchRun t).2 ∧
      (∀ c ∈ (takeArchRun t).1, isArchChar c = true) ∧
      (∀ c, (takeArchRun t).2.head? = some c → isArchChar c = false) := by
  intro t
  induction t with
  | nil => exact ⟨rfl, by simp [takeArchRun], by simp [takeArchRun]⟩
  | cons c cs ih =>
    by_cases hc : isArchChar c
    · refine ⟨?_, ?_, ?_⟩
      · simp only [takeArchRun, hc, if_true, List.cons_append]
        exact congrArg (c :: ·) ih.1
      · simp only [takeArchRun, hc, if_true]
        intro x hx
        rcases List.mem_cons.1 hx with h | h
        · subst h; exact hc
        · exact ih.2.1 x h
      · simp only [takeArchRun, hc, if_true]
        exact ih.2.2
    · have hc₂ : isArchChar c = false := by simpa using hc
      refine ⟨?_, ?_, ?_⟩
      · simp [takeArchRun, hc₂]
      · simp [takeArchRun, hc₂]
      · simp only [takeArchRun, hc₂, Bool.false_eq_true, if_false]
        intro x hx
        injection hx with hx
        subst hx
        exact hc₂

theorem list_isEmpty_false {α : Type} (l : List α) (h : l ≠ []) : l.isEmpty = false := by
  cases l with
  | nil => exact absurd rfl h
  | cons x xs => rfl

theorem flavors_no_newline : ∀ f ∈ flavorsL, '\n' ∉ f := by decide

theorem arch_no_newline (a : List Char) (ha : ∀ c ∈ a, isArchChar c = true) :
    '\n' ∉ a := by
  intro hmem
  exact absurd (ha _ hmem) (by decide)

theorem flavorAlt_exact (f : List Char) (hf : f ∈ flavorsL) :
    flavorAlt flavorsL f = some (f, []) := by
  fin_cases hf <;> decide

theorem flavorAlt_nl (f : List Char) (hf : f ∈ flavorsL) :
    flavorAlt flavorsL (f ++ ['\n']) = some (f, ['\n']) := by
  fin_cases hf <;> decide

theorem flavorAlt_sound :
    ∀ (fls : List (List Char)) (t fl lo : List Char), flavorAlt fls t = some (fl, lo) →
      fl ∈ fls ∧ ((lo = [] ∧ t = fl) ∨ (lo = ['\n'] ∧ t = fl ++ ['\n'])) := by
  intro fls
  induction fls with
  | nil => intro t fl lo h; simp [flavorAlt] at h
  | cons g rest ih =>
    intro t fl lo h
    by_cases h1 : t = g
    · rw [flavorAlt, if_pos h1] at h
      simp only [Option.some.injEq, Prod.mk.injEq] at h
      obtain ⟨hfl, hlo⟩ := h
      subst hfl
      exact ⟨List.mem_cons_self g rest, Or.inl ⟨hlo.symm, h1⟩⟩
    · by_cases h2 : t = g ++ ['\n']
      · rw [flavorAlt, if_neg h1, if_pos h2] at h
        simp only [Option.some.injEq, Prod.mk.injEq] at h
        obtain ⟨hfl, hlo⟩ := h
        subst hfl
        exact ⟨List.mem_cons_self g rest, Or.inr ⟨hlo.symm, h2⟩⟩
      · rw [flavorAlt, if_neg h1, if_neg h2] at h
        obtain ⟨hm, hc⟩ := ih t fl lo h
        exact ⟨List.mem_cons_of_mem g hm, hc⟩

theorem matchAfterDot_arch (a : List Char) (hne : a ≠ [])
    (ha : ∀ c ∈ a, isArchChar c = true) : matchAfterDot a = some (a, none, []) := by
  have h : takeArchRun (a ++ []) = (a, []) :=
    takeArchRun_append a [] ha (by intro c hc; simp at hc)
  rw [List.append_nil] at h
  simp [matchAfterDot, h, list_isEmpty_false a hne]

theorem matchAfterDot_arch_nl (a : List Char) (hne : a ≠ [])
    (ha : ∀ c ∈ a, isArchChar c = true) :
    matchAfterDot (a ++ ['\n']) = some (a, none, ['\n']) := by
  have h : takeArchRun (a ++ ['\n']) = (a, ['\n']) :=
    takeArchRun_append a ['\n'] ha
      (by intro c hc; injection hc with hc; subst hc; decide)
  simp [matchAfterDot, h, list_isEmpty_false a hne]

theorem matchAfterDot_flavored (a f : List Char) (hne : a ≠ [])
    (ha : ∀ c ∈ a, isArchChar c = true) (hf : flavorsL.contains f = true) :
    matchAfterDot (a ++ '.' :: f) = some (a, some f, []) := by
  have h : takeArchRun (a ++ '.' :: f) = (a, '.' :: f) :=
    takeArchRun_append a ('.' :: f) ha
      (by intro c hc; injection hc with hc; subst hc; decide)
  have hfa : flavorAlt flavorsL f = some (f, []) := flavorAlt_exact f (by simpa using hf)
  simp [matchAfterDot, h, list_isEmpty_false a hne, hfa]

theorem matchAfterDot_flavored_nl (a f : List Char) (hne : a ≠ [])
    (ha : ∀ c ∈ a, isArchChar c = true) (hf : flavorsL.contains f = true) :
    matchAfterDot (a ++ '.' :: (f ++ ['\n'])) = some (a, some f, ['\n']) := by
  have h : takeArchRun (a ++ '.' :: (f ++ ['\n'])) = (a, '.' :: (f ++ ['\n'])) :=
    takeArchRun_append a ('.' :: (f ++ ['\n'])) ha
      (by intro c hc; injection hc with hc; subst hc; decide)
  have hfa : flavorAlt flavorsL (f ++ ['\n']) = some (f, ['\n']) :=
    flavorAlt_nl f (by simpa using hf)
  have hnn : ¬ ((f ++ ['\n']).isEmpty = true) := by simp
  simp [matchAfterDot, h, list_isEmpty_false a hne, hfa, hnn]

theorem matchAfterDot_sound (t a : List Char) (of : Option (List Char)) (lo : List Char)
    (h : matchAfterDot t = some (a, of, lo)) :
    (a ≠ [] ∧ ∀ c ∈ a, isArchChar c = true) ∧
      ((of = none ∧ lo = [] ∧ t = a) ∨
       (of = none ∧ lo = ['\n'] ∧ t = a ++ ['\n']) ∨
       (∃ f, of = some f ∧ flavorsL.contains f = true ∧ lo = [] ∧ t = a ++ '.' :: f) ∨
       (∃ f, of = some f ∧ flavorsL.contains f = true ∧ lo = ['\n'] ∧
          t = a ++ '.' :: (f ++ ['\n']))) := by
  obtain ⟨heq, harch, _⟩ := takeArchRun_spec t
  rcases hp : takeArchRun t with ⟨a₁, rest⟩
  rw [hp] at heq harch
  simp only [matchAfterDot, hp] at h
  by_cases hE : a₁.isEmpty
  · simp [hE] at h
  · have hE₂ : a₁.isEmpty = false := by simpa using hE
    have hane : a₁ ≠ [] := by
      intro hnil
      subst hnil
      simp at hE₂
    simp only [hE₂, Bool.false_eq_true, if_false] at h
    cases rest with
    | nil =>
      simp only [Option.some.injEq, Prod.mk.injEq] at h
      obtain ⟨h₁, h₂, h₃⟩ := h
      subst h₁
      exact ⟨⟨hane, harch⟩, Or.inl ⟨h₂.symm, h₃.symm, by simpa using heq⟩⟩
    | cons c t₂ =>
      dsimp only at h
      by_cases hnl : (decide (c = '\n') && t₂.isEmpty) = true
      · rw [if_pos hnl] at h
        simp only [Option.some.injEq, Prod.mk.injEq] at h
        obtain ⟨h₁, h₂, h₃⟩ := h
        subst h₁
        obtain ⟨hc, hte⟩ := Bool.and_eq_true_iff.1 hnl
        have hc₂ : c = '\n' := of_decide_eq_true hc
        have hte₂ : t₂ = [] := by
          cases t₂ with
          | nil => rfl
          | cons x xs => simp at hte
        subst hc₂
        subst hte₂
        exact ⟨⟨hane, harch⟩, Or.inr (Or.inl ⟨h₂.symm, h₃.symm, heq⟩)⟩
      · rw [if_neg hnl] at h
        by_cases hdot : c = '.'
        · rw [if_pos hdot] at h
          subst hdot
          rcases hfa : flavorAlt flavorsL t₂ with _ | ⟨fl, lo₂⟩
          · rw [hfa] at h
            simp at h
          · rw [hfa] at h
            simp only [Option.some.injEq, Prod.mk.injEq] at h
            obtain ⟨h₁, h₂, h₃⟩ := h
            subst h₁
            obtain ⟨hmem, hcs⟩ := flavorAlt_sound flavorsL t₂ fl lo₂ hfa
            have hmem₂ : flavorsL.contains fl = true := by simpa using hmem
            rcases hcs with ⟨hlo, ht₂⟩ | ⟨hlo, ht₂⟩
            · refine ⟨⟨hane, harch⟩,
                Or.inr (Or.inr (Or.inl ⟨fl, h₂.symm, hmem₂, hlo ▸ h₃.symm, ?_⟩))⟩
              rw [heq, ht₂]
            · refine ⟨⟨hane, harch⟩,
                Or.inr (Or.inr (Or.inr ⟨fl, h₂.symm, hmem₂, hlo ▸ h₃.symm, ?_⟩))⟩
              rw [heq, ht₂]
        · rw [if_neg hdot] at h
          exact absurd h (by simp)

theorem matchAfterDot_dots (t : List Char)
    (r : List Char × Option (List Char) × List Char)
    (h : matchAfterDot t = some r) : countDots t ≤ 1 := by
  obtain ⟨⟨_, ha⟩, hcase⟩ := matchAfterDot_sound t r.1 r.2.1 r.2.2 (by simpa using h)
  rcases hcase with ⟨_, _, ht⟩ | ⟨_, _, ht⟩ | ⟨f, _, hf, _, ht⟩ | ⟨f, _, hf, _, ht⟩
  · rw [ht, countDots_arch_zero r.1 ha]
    omega
  · rw [ht, countDots_append, countDots_arch_zero r.1 ha]
    simp [countDots]
  · rw [ht, countDots_append, countDots_arch_zero r.1 ha,
        show countDots ('.' :: f) = 1 + countDots f from rfl,
        countDots_flavor_zero f hf]
  · rw [ht, countDots_append, countDots_arch_zero r.1 ha,
        show countDots ('.' :: (f ++ ['\n'])) = 1 + countDots (f ++ ['\n']) from rfl,
        countDots_append, countDots_flavor_zero f hf]
    simp [countDots]

theorem split_at_dot_unique :
    ∀ (x₁ y₁ x₂ y₂ : List Char),
      x₁ ++ '.' :: y₁ = x₂ ++ '.' :: y₂ → countDots x₁ = 0 → countDots x₂ = 0 →
      x₁ = x₂ ∧ y₁ = y₂ := by
  intro x₁
  induction x₁ with
  | nil =>
    intro y₁ x₂ y₂ h _ h₂
    cases x₂ with
    | nil =>
      simp only [List.nil_append, List.cons.injEq] at h
      exact ⟨rfl, h.2⟩
    | cons c x₂' =>
      simp only [List.nil_append, List.cons_append, List.cons.injEq] at h
      obtain ⟨hc, _⟩ := h
      rw [← hc] at h₂
      simp [countDots] at h₂
  | cons c x₁' ih =>
    intro y₁ x₂ y₂ h h₁ h₂
    cases x₂ with
    | nil =>
      simp only [List.cons_append, List.nil_append, List.cons.injEq] at h
      obtain ⟨hc, _⟩ := h
      rw [hc] at h₁
      simp [countDots] at h₁
    | cons d x₂' =>
      simp only [List.cons_append, List.cons.injEq] at h
      obtain ⟨hc, ht⟩ := h
      have h₁' : countDots x₁' = 0 := by
        simp only [countDots] at h₁
        omega
      have h₂' : countDots x₂' = 0 := by
        simp only [countDots] at h₂
        omega
      obtain ⟨hx, hy⟩ := ih y₁ x₂' y₂ ht h₁' h₂'
      exact ⟨by rw [hc, hx], hy⟩

theorem kreGo_hit (t : List Char) (r : List Char × Option (List Char) × List Char)
    (h : matchAfterDot t = some r) : kreGo ('.' :: t) = some r := by
  simp [kreGo, h]

theorem kreGo_cons_dot (t : List Char) :
    kreGo ('.' :: t) =
      (match matchAfterDot t with
       | some r => some r
       | none => kreGo t) := rfl

theorem kreGo_cons_ne (c : Char) (t : List Char) (hc : c ≠ '.') (hn : c ≠ '\n') :
    kreGo (c :: t) = kreGo t := by
  simp only [kreGo, if_neg hc, if_neg hn]

theorem kreGo_skip :
    ∀ (w t₀ : List Char), (∀ c ∈ w, c ≠ '\n') →
      (∀ u w₂, w = u ++ '.' :: w₂ → matchAfterDot (w₂ ++ t₀) = none) →
      kreGo (w ++ t₀) = kreGo t₀ := by
  intro w
  induction w with
  | nil => intro t₀ _ _; rfl
  | cons c w' ih =>
    intro t₀ hnl hsplit
    rw [List.cons_append]
    by_cases hc : c = '.'
    · subst hc
      have h0 : matchAfterDot (w' ++ t₀) = none := hsplit [] w' rfl
      rw [kreGo_cons_dot, h0]
      exact ih t₀ (fun x hx => hnl x (List.mem_cons_of_mem _ hx))
        (fun u w₂ hu => hsplit ('.' :: u) w₂ (by rw [hu]; rfl))
    · have hn : c ≠ '\n' := hnl c (List.mem_cons_self c w')
      rw [kreGo_cons_ne c _ hc hn]
      exact ih t₀ (fun x hx => hnl x (List.mem_cons_of_mem _ hx))
        (fun u w₂ hu => hsplit (c :: u) w₂ (by rw [hu]; rfl))

theorem dotSuffixes_mem :
    ∀ (w w₂ : List Char), w₂ ∈ dotSuffixes w ↔ ∃ u, w = u ++ '.' :: w₂ := by
  intro w
  induction w with
  | nil =>
    intro w₂
    constructor
    · intro h; simp [dotSuffixes] at h
    · rintro ⟨u, hu⟩
      exact absurd hu.symm (by simp)
  | cons c w' ih =>
    intro w₂
    by_cases hc : c = '.'
    · subst hc
      rw [show dotSuffixes ('.' :: w') = w' :: dotSuffixes w' from rfl]
      simp only [List.mem_cons]
      constructor
      · rintro (rfl | h)
        · exact ⟨[], rfl⟩
        · obtain ⟨u, hu⟩ := (ih w₂).1 h
          exact ⟨'.' :: u, by rw [hu]; rfl⟩
      · rintro ⟨u, hu⟩
        cases u with
        | nil =>
          simp only [List.nil_append, List.cons.injEq] at hu
          exact Or.inl hu.2.symm
        | cons d u' =>
          simp only [List.cons_append, List.cons.injEq] at hu
          exact Or.inr ((ih w₂).2 ⟨u', hu.2⟩)
    · rw [show dotSuffixes (c :: w') = if c = '.' then w' :: dotSuffixes w' else dotSuffixes w'
            from rfl, if_neg hc, ih w₂]
      constructor
      · rintro ⟨u, hu⟩
        exact ⟨c :: u, by rw [hu]; rfl⟩
      · rintro ⟨u, hu⟩
        cases u with
        | nil =>
          simp only [List.nil_append, List.cons.injEq] at hu
          exact absurd hu.1 hc
        | cons d u' =>
          simp only [List.cons_append, List.cons.injEq] at hu
          exact ⟨u', hu.2⟩

theorem vmlinuz_prefix (v : List Char) :
    ("vmlinuz-".data ++ v).take 8 = "vmlinuz-".data ∧
      ("vmlinuz-".data ++ v).drop 8 = v := by
  have h8 : ("vmlinuz-".data).length = 8 := rfl
  constructor
  · rw [← h8]
    exact List.take_left _ _
  · rw [← h8]
    exact List.drop_left _ _

theorem kreMatch_flavored (w a f : List Char) (hw : w ≠ [])
    (hnl : ∀ c ∈ w, c ≠ '\n') (hane : a ≠ [])
    (ha : ∀ c ∈ a, isArchChar c = true) (hf : flavorsL.contains f = true) :
    kreMatch ("vmlinuz-".data ++ (w ++ '.' :: (a ++ '.' :: f))) =
      some (w ++ '.' :: (a ++ '.' :: f), a, some f) := by
  obtain ⟨ht, hd⟩ := vmlinuz_prefix (w ++ '.' :: (a ++ '.' :: f))
  rcases w with _ | ⟨c, w'⟩
  · exact absurd rfl hw
  · have hc : c ≠ '\n' := hnl c (List.mem_cons_self c w')
    have hsplit : ∀ u w₂, w' = u ++ '.' :: w₂ →
        matchAfterDot (w₂ ++ '.' :: (a ++ '.' :: f)) = none := by
      intro u w₂ _
      rcases hm : matchAfterDot (w₂ ++ '.' :: (a ++ '.' :: f)) with _ | r
      · rfl
      · exfalso
        have hle := matchAfterDot_dots _ r hm
        rw [countDots_append] at hle
        have h1 : countDots ('.' :: (a ++ '.' :: f)) = 1 + (countDots a + (1 + countDots f)) := by
          rw [show countDots ('.' :: (a ++ '.' :: f)) = 1 + countDots (a ++ '.' :: f) from rfl,
              countDots_append,
              show countDots ('.' :: f) = 1 + countDots f from rfl]
        rw [h1, countDots_arch_zero a ha] at hle
        omega
    have hgo : kreGo (w' ++ '.' :: (a ++ '.' :: f)) = kreGo ('.' :: (a ++ '.' :: f)) :=
      kreGo_skip w' ('.' :: (a ++ '.' :: f))
        (fun x hx => hnl x (List.mem_cons_of_mem _ hx)) hsplit
    have hfin : kreGo ('.' :: (a ++ '.' :: f)) = some (a, some f, []) :=
      kreGo_hit _ _ (matchAfterDot_flavored a f hane ha hf)
    rw [show (c :: w') ++ '.' :: (a ++ '.' :: f) = c :: (w' ++ '.' :: (a ++ '.' :: f))
          from rfl] at ht hd ⊢
    simp only [kreMatch, ht, hd, if_neg hc, hgo, hfin]
    simp

theorem kreMatch_flavored_nl (w a f : List Char) (hw : w ≠ [])
    (hnl : ∀ c ∈ w, c ≠ '\n') (hane : a ≠ [])
    (ha : ∀ c ∈ a, isArchChar c = true) (hf : flavorsL.contains f = true) :
    kreMatch ("vmlinuz-".data ++ (w ++ '.' :: (a ++ '.' :: (f ++ ['\n'])))) =
      some (w ++ '.' :: (a ++ '.' :: f), a, some f) := by
  obtain ⟨ht, hd⟩ := vmlinuz_prefix (w ++ '.' :: (a ++ '.' :: (f ++ ['\n'])))
  rcases w with _ | ⟨c, w'⟩
  · exact absurd rfl hw
  · have hc : c ≠ '\n' := hnl c (List.mem_cons_self c w')
    have hsplit : ∀ u w₂, w' = u ++ '.' :: w₂ →
        matchAfterDot (w₂ ++ '.' :: (a ++ '.' :: (f ++ ['\n']))) = none := by
      intro u w₂ _
      rcases hm : matchAfterDot (w₂ ++ '.' :: (a ++ '.' :: (f ++ ['\n']))) with _ | r
      · rfl
      · exfalso
        have hle := matchAfterDot_dots _ r hm
        rw [countDots_append] at hle
        have h1 : countDots ('.' :: (a ++ '.' :: (f ++ ['\n']))) =
            1 + (countDots a + (1 + (countDots f + countDots ['\n']))) := by
          rw [show countDots ('.' :: (a ++ '.' :: (f ++ ['\n']))) =
                1 + countDots (a ++ '.' :: (f ++ ['\n'])) from rfl,
              countDots_append,
              show countDots ('.' :: (f ++ ['\n'])) = 1 + countDots (f ++ ['\n']) from rfl,
              countDots_append]
        rw [h1, countDots_arch_zero a ha] at hle
        omega
    have hgo : kreGo (w' ++ '.' :: (a ++ '.' :: (f ++ ['\n']))) =
        kreGo ('.' :: (a ++ '.' :: (f ++ ['\n']))) :=
      kreGo_skip w' ('.' :: (a ++ '.' :: (f ++ ['\n'])))
        (fun x hx => hnl x (List.mem_cons_of_mem _ hx)) hsplit
    have hfin : kreGo ('.' :: (a ++ '.' :: (f ++ ['\n']))) = some (a, some f, ['\n']) :=
      kreGo_hit _ _ (matchAfterDot_flavored_nl a f hane ha hf)
    rw [show (c :: w') ++ '.' :: (a ++ '.' :: (f ++ ['\n'])) =
          c :: (w' ++ '.' :: (a ++ '.' :: (f ++ ['\n']))) from rfl] at ht hd ⊢
    simp only [kreMatch, ht, hd, if_neg hc, hgo, hfin]
    have hver : (c :: (w' ++ '.' :: (a ++ '.' :: (f ++ ['\n'])))).dropLast =
        c :: (w' ++ '.' :: (a ++ '.' :: f)) := by
      rw [show c :: (w' ++ '.' :: (a ++ '.' :: (f ++ ['\n']))) =
            (c :: (w' ++ '.' :: (a ++ '.' :: f))) ++ ['\n'] by simp]
      exact List.dropLast_concat
    simp [hver]

theorem kreMatch_flavorless (w a : List Char) (hw : w ≠ [])
    (hnl : ∀ c ∈ w, c ≠ '\n') (hane : a ≠ [])
    (ha : ∀ c ∈ a, isArchChar c = true) (hfr : hasFlavoredReading w a = false) :
    kreMatch ("vmlinuz-".data ++ (w ++ '.' :: a)) = some (w ++ '.' :: a, a, none) := by
  obtain ⟨ht, hd⟩ := vmlinuz_prefix (w ++ '.' :: a)
  rcases w with _ | ⟨c, w'⟩
  · exact absurd rfl hw
  · have hc : c ≠ '\n' := hnl c (List.mem_cons_self c w')
    have hsplit : ∀ u w₂, w' = u ++ '.' :: w₂ →
        matchAfterDot (w₂ ++ '.' :: a) = none := by
      intro u w₂ hu
      have hw₂nl : ∀ z ∈ w₂, z ≠ '\n' := by
        intro z hz
        apply hnl z
        apply List.mem_cons_of_mem c
        rw [hu]
        exact List.mem_append_right u (List.mem_cons_of_mem '.' hz)
      have hnint : '\n' ∉ w₂ ++ '.' :: a := by
        intro hmem
        rcases List.mem_append.1 hmem with hmm | hmm
        · exact hw₂nl '\n' hmm rfl
        · rcases List.mem_cons.1 hmm with hmm | hmm
          · exact absurd hmm (by decide)
          · exact arch_no_newline a ha hmm
      rcases hm : matchAfterDot (w₂ ++ '.' :: a) with _ | r
      · rfl
      · exfalso
        have hle := matchAfterDot_dots _ r hm
        rw [countDots_append] at hle
        have h1 : countDots ('.' :: a) = 1 + countDots a := rfl
        rw [h1, countDots_arch_zero a ha] at hle
        have hw₂0 : countDots w₂ = 0 := by omega
        have hcnt : countDots (w₂ ++ '.' :: a) = 1 := by
          rw [countDots_append, h1, countDots_arch_zero a ha, hw₂0]
        rcases r with ⟨a₁, of, lo⟩
        obtain ⟨⟨hane₁, ha₁⟩, hcase⟩ := matchAfterDot_sound _ a₁ of lo hm
        rcases hcase with ⟨_, _, hteq⟩ | ⟨_, _, hteq⟩ |
          ⟨f, _, hfl, _, hteq⟩ | ⟨f, _, hfl, _, hteq⟩
        · rw [hteq, countDots_arch_zero a₁ ha₁] at hcnt
          omega
        · rw [hteq, countDots_append, countDots_arch_zero a₁ ha₁] at hcnt
          simp [countDots] at hcnt
        · obtain ⟨hx, hy⟩ := split_at_dot_unique w₂ a a₁ f hteq hw₂0
            (countDots_arch_zero a₁ ha₁)
          have hmem : w₂ ∈ dotSuffixes (c :: w') :=
            (dotSuffixes_mem (c :: w') w₂).2 ⟨c :: u, by rw [hu]; rfl⟩
          have hflav : hasFlavoredReading (c :: w') a = true := by
            unfold hasFlavoredReading
            refine Bool.and_eq_true_iff.2 ⟨?_, ?_⟩
            · rw [hy]; exact hfl
            · refine List.any_eq_true.2 ⟨w₂, hmem, ?_⟩
              refine Bool.and_eq_true_iff.2 ⟨?_, ?_⟩
              · rcases w₂ with _ | ⟨z, zs⟩
                · exact absurd hx.symm hane₁
                · rfl
              · refine List.all_eq_true.2 ?_
                intro z hz
                exact ha₁ z (hx ▸ hz)
          rw [hflav] at hfr
          exact absurd hfr (by simp)
        · rw [hteq] at hnint
          exact hnint (List.mem_append_right a₁ (List.mem_cons_of_mem '.'
            (List.mem_append_right f (List.mem_cons_self '\n' []))))
    have hgo : kreGo (w' ++ '.' :: a) = kreGo ('.' :: a) :=
      kreGo_skip w' ('.' :: a) (fun x hx => hnl x (List.mem_cons_of_mem _ hx)) hsplit
    have hfin : kreGo ('.' :: a) = some (a, none, []) :=
      kreGo_hit _ _ (matchAfterDot_arch a hane ha)
    rw [show (c :: w') ++ '.' :: a = c :: (w' ++ '.' :: a) from rfl] at ht hd ⊢
    simp only [kreMatch, ht, hd, if_neg hc, hgo, hfin]
    simp

theorem kreMatch_flavorless_nl (w a : List Char) (hw : w ≠ [])
    (hnl : ∀ c ∈ w, c ≠ '\n') (hane : a ≠ [])
    (ha : ∀ c ∈ a, isArchChar c = true) (hfr : hasFlavoredReading w a = false) :
    kreMatch ("vmlinuz-".data ++ (w ++ '.' :: (a ++ ['\n']))) =
      some (w ++ '.' :: a, a, none) := by
  obtain ⟨ht, hd⟩ := vmlinuz_prefix (w ++ '.' :: (a ++ ['\n']))
  rcases w with _ | ⟨c, w'⟩
  · exact absurd rfl hw
  · have hc : c ≠ '\n' := hnl c (List.mem_cons_self c w')
    have hsplit : ∀ u w₂, w' = u ++ '.' :: w₂ →
        matchAfterDot (w₂ ++ '.' :: (a ++ ['\n'])) = none := by
      intro u w₂ hu
      rcases hm : matchAfterDot (w₂ ++ '.' :: (a ++ ['\n'])) with _ | r
      · rfl
      · exfalso
        have hle := matchAfterDot_dots _ r hm
        rw [countDots_append] at hle
        have h1 : countDots ('.' :: (a ++ ['\n'])) = 1 + (countDots a + countDots ['\n']) := by
          rw [show countDots ('.' :: (a ++ ['\n'])) = 1 + countDots (a ++ ['\n']) from rfl,
              countDots_append]
        rw [h1, countDots_arch_zero a ha] at hle
        have hw₂0 : countDots w₂ = 0 := by
          have hn0 : countDots ['\n'] = 0 := rfl
          omega
        have hcnt : countDots (w₂ ++ '.' :: (a ++ ['\n'])) = 1 := by
          rw [countDots_append, h1, countDots_arch_zero a ha, hw₂0]
          rfl
        rcases r with ⟨a₁, of, lo⟩
        obtain ⟨⟨hane₁, ha₁⟩, hcase⟩ := matchAfterDot_sound _ a₁ of lo hm
        rcases hcase with ⟨_, _, hteq⟩ | ⟨_, _, hteq⟩ |
          ⟨f, _, hfl, _, hteq⟩ | ⟨f, _, hfl, _, hteq⟩
        · rw [hteq, countDots_arch_zero a₁ ha₁] at hcnt
          omega
        · rw [hteq, countDots_append, countDots_arch_zero a₁ ha₁] at hcnt
          simp [countDots] at hcnt
        · have hnint : '\n' ∉ a₁ ++ '.' :: f := by
            intro hmem
            rcases List.mem_append.1 hmem with hmm | hmm
            · exact arch_no_newline a₁ ha₁ hmm
            · rcases List.mem_cons.1 hmm with hmm | hmm
              · exact absurd hmm (by decide)
              · exact flavors_no_newline f (by simpa using hfl) hmm
          rw [← hteq] at hnint
          exact hnint (List.mem_append_right w₂ (List.mem_cons_of_mem '.'
            (List.mem_append_right a (List.mem_cons_self '\n' []))))
        · have hsp : w₂ ++ '.' :: (a ++ ['\n']) = a₁ ++ '.' :: (f ++ ['\n']) := hteq
          obtain ⟨hx, hy⟩ := split_at_dot_unique w₂ (a ++ ['\n']) a₁ (f ++ ['\n']) hsp hw₂0
            (countDots_arch_zero a₁ ha₁)
          have hyy : a = f := by
            have := congrArg List.dropLast hy
            simpa [List.dropLast_concat] using this
          have hmem : w₂ ∈ dotSuffixes (c :: w') :=
            (dotSuffixes_mem (c :: w') w₂).2 ⟨c :: u, by rw [hu]; rfl⟩
          have hflav : hasFlavoredReading (c :: w') a = true := by
            unfold hasFlavoredReading
            refine Bool.and_eq_true_iff.2 ⟨?_, ?_⟩
            · rw [hyy]; exact hfl
            · refine List.any_eq_true.2 ⟨w₂, hmem, ?_⟩
              refine Bool.and_eq_true_iff.2 ⟨?_, ?_⟩
              · rcases w₂ with _ | ⟨z, zs⟩
                · exact absurd hx.symm hane₁
                · rfl
              · refine List.all_eq_true.2 ?_
                intro z hz
                exact ha₁ z (hx ▸ hz)
          rw [hflav] at hfr
          exact absurd hfr (by simp)
    have hgo : kreGo (w' ++ '.' :: (a ++ ['\n'])) = kreGo ('.' :: (a ++ ['\n'])) :=
      kreGo_skip w' ('.' :: (a ++ ['\n']))
        (fun x hx => hnl x (List.mem_cons_of_mem _ hx)) hsplit
    have hfin : kreGo ('.' :: (a ++ ['\n'])) = some (a, none, ['\n']) :=
      kreGo_hit _ _ (matchAfterDot_arch_nl a hane ha)
    rw [show (c :: w') ++ '.' :: (a ++ ['\n']) = c :: (w' ++ '.' :: (a ++ ['\n']))
          from rfl] at ht hd ⊢
    simp only [kreMatch, ht, hd, if_neg hc, hgo, hfin]
    have hver : (c :: (w' ++ '.' :: (a ++ ['\n']))).dropLast = c :: (w' ++ '.' :: a) := by
      rw [show c :: (w' ++ '.' :: (a ++ ['\n'])) = (c :: (w' ++ '.' :: a)) ++ ['\n'] by simp]
      exact List.dropLast_concat
    simp [hver]

/-- C3 (as amended): the kernel-name matcher.  A name of the flavored form
`vmlinuz-<w>.<arch>.<flavor>` (arch a non-empty lowercase
alphanumeric/underscore token, flavor in the closed set, no interior
newline) matches with `version` equal to everything after `vmlinuz-`,
`arch` the token immediately preceding the flavor suffix and `flavor`
set; a name of the flavorless form `vmlinuz-<w>.<arch>` matches with
`flavor` unset whenever no flavored reading of the same name exists;
because the pattern's `$` also matches just before a newline that ends
the name, either form followed by a single trailing newline matches as
well, with `version` equal to everything after `vmlinuz-` up to but
excluding that newline; every match becomes a kernel record with exactly
these captures; directories whose entries all fail to match produce no
records and no error; and the claim's two example names together with the
trailing-newline example produce these captures. -/
theorem findkernels_version_arch_flavor :
    (∀ (w a f : List Char), w ≠ [] → (∀ c ∈ w, c ≠ '\n') → a ≠ [] →
       (∀ c ∈ a, isArchChar c = true) → flavorsL.contains f = true →
       kreMatch ("vmlinuz-".data ++ (w ++ '.' :: (a ++ '.' :: f))) =
         some (w ++ '.' :: (a ++ '.' :: f), a, some f)) ∧
    (∀ (w a : List Char), w ≠ [] → (∀ c ∈ w, c ≠ '\n') → a ≠ [] →
       (∀ c ∈ a, isArchChar c = true) → hasFlavoredReading w a = false →
       kreMatch ("vmlinuz-".data ++ (w ++ '.' :: a)) = some (w ++ '.' :: a, a, none)) ∧
    (∀ (w a f : List Char), w ≠ [] → (∀ c ∈ w, c ≠ '\n') → a ≠ [] →
       (∀ c ∈ a, isArchChar c = true) → flavorsL.contains f = true →
       kreMatch ("vmlinuz-".data ++ (w ++ '.' :: (a ++ '.' :: (f ++ ['\n'])))) =
         some (w ++ '.' :: (a ++ '.' :: f), a, some f)) ∧
    (∀ (w a : List Char), w ≠ [] → (∀ c ∈ w, c ≠ '\n') → a ≠ [] →
       (∀ c ∈ a, isArchChar c = true) → hasFlavoredReading w a = false →
       kreMatch ("vmlinuz-".data ++ (w ++ '.' :: (a ++ ['\n']))) =
         some (w ++ '.' :: a, a, none)) ∧
    (∀ (env : Env) (root kdir f v a : String) (fl : Option String),
       f ∈ env.listdir (joinpaths root kdir) → kreMatchS f = some (v, a, fl) →
       ∃ k ∈ findkernels env root kdir,
         k.path = joinpaths kdir f ∧ k.version = v ∧ k.arch = a ∧ k.flavor = fl) ∧
    (∀ (env : Env) (root kdir : String),
       (∀ f ∈ env.listdir (joinpaths root kdir), kreMatchS f = none) →
       findkernels env root kdir = []) ∧
    kreMatchS "vmlinuz-5.10.0-300.fc35.x86_64" =
      some ("5.10.0-300.fc35.x86_64", "x86_64", none) ∧
    kreMatchS "vmlinuz-5.10.0.x86_64.debug" =
      some ("5.10.0.x86_64.debug", "x86_64", some "debug") ∧
    kreMatchS "vmlinuz-5.10.0.x86_64\n" =
      some ("5.10.0.x86_64", "x86_64", none) := by
  refine ⟨kreMatch_flavored, kreMatch_flavorless, kreMatch_flavored_nl,
    kreMatch_flavorless_nl, ?_, ?_, by decide, by decide, by decide⟩
  · intro env root kdir f v a fl hf hm
    refine ⟨{ path := joinpaths kdir f, version := v, arch := a, flavor := fl,
              initrd := initrdSearch env root (joinpaths kdir f) }, ?_, rfl, rfl, rfl, rfl⟩
    simp only [findkernels]
    have hmem : Kernel.mk (joinpaths kdir f) v a fl none ∈
        (env.listdir (joinpaths root kdir)).filterMap (fun f₂ =>
          match kreMatchS f₂ with
          | some (v₂, a₂, fl₂) => some (Kernel.mk (joinpaths kdir f₂) v₂ a₂ fl₂ none)
          | none => (none : Option Kernel)) := by
      refine List.mem_filterMap.2 ⟨f, hf, ?_⟩
      rw [hm]
    exact List.mem_map_of_mem _ hmem
  · intro env root kdir h
    simp only [findkernels]
    have hnil : (env.listdir (joinpaths root kdir)).filterMap (fun f₂ =>
        match kreMatchS f₂ with
        | some (v₂, a₂, fl₂) => some (Kernel.mk (joinpaths kdir f₂) v₂ a₂ fl₂ none)
        | none => (none : Option Kernel)) = [] := by
      rw [List.filterMap_eq_nil_iff]
      intro f hf
      rw [h f hf]
    rw [hnil]
    rfl

/-- Counterexample for C3 as originally stated: the directory entry
`vmlinuz-5.10.0.x86_64\n` is not of the claimed form (nothing after
`vmlinuz-` ends in a dot followed by a lowercase alphanumeric/underscore
arch token, with or without a flavor suffix), yet `findkernels` does not
ignore it: the pattern's `$` matches before the trailing newline, a
kernel record is produced, and its recorded `version` is not everything
after `vmlinuz-` up to the end of the name — the newline is excluded. -/
theorem findkernels_trailing_newline_counterexample :
    kreMatchS "vmlinuz-5.10.0.x86_64\n" = some ("5.10.0.x86_64", "x86_64", none) ∧
    findkernels envN "/" "boot" =
      [{ path := "boot/vmlinuz-5.10.0.x86_64\n", version := "5.10.0.x86_64",
         arch := "x86_64", flavor := none, initrd := none }] ∧
    findkernels envN "/" "boot" ≠ [] ∧
    (∀ k ∈ findkernels envN "/" "boot", k.version ≠ "5.10.0.x86_64\n") := by
  refine ⟨by decide, by decide, by decide, by decide⟩

/-- Witness for the C3 theorem: the flavored case applied at the concrete
name `vmlinuz-5.10.0.x86_64.debug`. -/
theorem findkernels_version_arch_flavor_witness :
    kreMatch ("vmlinuz-".data ++ ("5.10.0".data ++ '.' :: ("x86_64".data ++ '.' :: "debug".data))) =
      some ("5.10.0".data ++ '.' :: ("x86_64".data ++ '.' :: "debug".data),
            "x86_64".data, some "debug".data) :=
  findkernels_version_arch_flavor.1 "5.10.0".data "x86_64".data "debug".data
    (by decide) (by decide) (by decide) (by decide) (by decide)

/-- C7: the fixed path-resolution convention.  The `exists` predicate uses
a path with a leading separator verbatim and resolves a relative one
against its root (`inroot` where the interpreter and the defaults bind
it); `install` globs its source pattern resolved against `inroot` and
copies to the destination resolved against `outroot`; and every other
path-taking command — `mkdir`, `replace`, `append`, `hardlink`, `symlink`
(destination; the link target is stored verbatim), `copy`, the copy of
`copyif`, `remove`, `chmod` — attempts its effect at the path resolved
against `outroot` (`move`/`moveif` being compositions of `copy`/`copyif`
and `remove`). -/
theorem path_resolution_convention :
    (∀ (env : Env) (root p : String) (cs : List Char), p.data = '/' :: cs →
       _exists env root p = .ok (decide (0 < (env.glob p).length))) ∧
    (∀ (env : Env) (root p : String) (c : Char) (cs : List Char),
       p.data = c :: cs → c ≠ '/' →
       _exists env root p = .ok (decide (0 < (env.glob (joinpaths root p)).length))) ∧
    (∀ (env : Env) (ir outr s d : String) (st : RState),
       (∀ q ∈ env.glob (joinpaths ir s), env.pathExists q = true) →
       env.glob (joinpaths ir s) ≠ [] →
       (installH env ir outr s d st).2.trace =
         st.trace ++ (env.glob (joinpaths ir s)).map
           (fun q => Effect.cpfile q (joinpaths outr d))) ∧
    (∀ (env : Env) (outr d : String) (st : RState), env.isdir (joinpaths outr d) = false →
       (mkdirH env outr [d] st).2.trace = st.trace ++ [Effect.makedirs (joinpaths outr d)]) ∧
    (∀ (env : Env) (outr pat rep f : String) (st : RState),
       (replaceH env outr pat rep [f] st).2.trace =
         st.trace ++ [Effect.replaceInFile pat rep (joinpaths outr f)]) ∧
    (∀ (env : Env) (outr f dat : String) (st : RState),
       (appendH env outr f dat st).2.trace =
         st.trace ++ [Effect.appendFile (joinpaths outr f) (dat ++ "\n")]) ∧
    (∀ (env : Env) (outr s d : String) (st : RState),
       (hardlinkH env outr s d st).2.trace =
         st.trace ++ [Effect.osLink (joinpaths outr s) (joinpaths outr d)]) ∧
    (∀ (env : Env) (outr t d : String) (st : RState),
       (symlinkH env outr t d st).2.trace =
         st.trace ++ [Effect.osSymlink t (joinpaths outr d)]) ∧
    (∀ (env : Env) (outr s d : String) (st : RState),
       env.pathExists (joinpaths outr s) = true →
       (copyH env outr s d st).2.trace =
         st.trace ++ [Effect.cpfile (joinpaths outr s) (joinpaths outr d)]) ∧
    (∀ (env : Env) (ir outr s d : String) (st : RState),
       _exists env ir s = .ok true → env.pathExists (joinpaths outr s) = true →
       (copyifH env ir outr s d st).2.trace =
         st.trace ++ [Effect.cpfile (joinpaths outr s) (joinpaths outr d)]) ∧
    (∀ (env : Env) (outr t : String) (st : RState),
       (removeH env outr [t] st).2.trace =
         st.trace ++ [Effect.removePath (joinpaths outr t)]) ∧
    (∀ (env : Env) (outr t m : String) (n : Nat) (st : RState), parseOctal m = some n →
       (chmodH env outr t m st).2.trace =
         st.trace ++ [Effect.chmodPath (joinpaths outr t) n]) := by
  refine ⟨?_, ?_, ?_, ?_, ?_, ?_, ?_, ?_, ?_, ?_, ?_, ?_⟩
  · intro env root p cs h
    simp [_exists, h]
  · intro env root p c cs h hc
    simp [_exists, h, hc]
  · intro env ir outr s d st hex hne
    have hE : (env.glob (joinpaths ir s)).isEmpty = false :=
      list_isEmpty_false _ hne
    simp only [installH, hE, Bool.false_eq_true, if_false]
    rw [copyAll_ok env (joinpaths outr d) (env.glob (joinpaths ir s)) st hex]
  · intro env outr d st h
    rcases ho : env.osOk (.makedirs (joinpaths outr d)) with _ | er <;>
      simp [mkdirH, perform, ho, RState.addEff, h]
  · intro env outr pat rep f st
    rcases ho : env.osOk (.replaceInFile pat rep (joinpaths outr f)) with _ | er <;>
      simp [replaceH, perform, ho, RState.addEff]
  · intro env outr f dat st
    rcases ho : env.osOk (.appendFile (joinpaths outr f) (dat ++ "\n")) with _ | er <;>
      simp [appendH, perform, ho, RState.addEff]
  · intro env outr s d st
    rcases ho : env.osOk (.osLink (joinpaths outr s) (joinpaths outr d)) with _ | er <;>
      simp [hardlinkH, perform, ho, RState.addEff]
  · intro env outr t d st
    rcases ho : env.osOk (.osSymlink t (joinpaths outr d)) with _ | er <;>
      simp [symlinkH, perform, ho, RState.addEff]
  · intro env outr s d st h
    simp [copyH, cpfileP, h, RState.addEff]
  · intro env ir outr s d st hex h
    simp [copyifH, hex, copyH, cpfileP, h, RState.addEff]
  · intro env outr t st
    rcases ho : env.osOk (.removePath (joinpaths outr t)) with _ | er <;>
      simp [removeH, perform, ho, RState.addEff]
  · intro env outr t m n st h
    rcases ho : env.osOk (.chmodPath (joinpaths outr t) n) with _ | er <;>
      simp [chmodH, perform, h, ho, RState.addEff]

/-- Witness for the C7 theorem at concrete inputs: an absolute path is
globbed verbatim by the existence check, and a single `mkdir` in `env1`
attempts `makedirs` at the out-root-resolved directory. -/
theorem path_resolution_convention_witness :
    _exists env1 "/in" "/abs" = .ok true ∧
    (mkdirH env1 "/out" ["boot"] initState).2.trace = [Effect.makedirs "/out/boot"] := by
  constructor
  · have h := path_resolution_convention.1 env1 "/in" "/abs" "abs".data rfl
    simpa using h
  · have h := path_resolution_convention.2.2.2.1 env1 "/out" "boot" initState rfl
    simpa [initState] using h

end Treebuilder
